import Mathlib

/-!
Verification development for the `wavetorch` core simulator
(`wavetorch/core/cell.py`).

The code is embedded shallowly over exact rationals:

* a `torch` tensor of shape `(Nx, Ny)` becomes a function
  `Fin Nx → Fin Ny → ℚ`, and a batched tensor of shape `(B, Nx, Ny)`
  becomes `Fin B → Fin Nx → Fin Ny → ℚ`;
* `conv2d(..., padding=1)` becomes an explicit 3×3 cross-correlation
  over the zero-padded grid;
* the transcendental primitives `torch.sqrt` and `torch.tanh` are kept
  abstract: the functions that call them take the primitive as an
  explicit argument, and theorems assume only the properties of the
  primitive that they need;
* IEEE division, whose result at a zero denominator is not a finite
  number (`0/0 = NaN`, `x/0 = ±Inf`), is modelled by an `Option ℚ`
  valued division `fdiv` where `none` stands for the non-finite result;
* Python exceptions (`ValueError`, `AssertionError`, `IndexError`)
  become an `Except PyError` result.
-/

namespace Wavetorch

/-- A 2D scalar field on an `Nx × Ny` grid: a `torch` tensor of shape
`(Nx, Ny)`. -/
abbrev Field (Nx Ny : ℕ) := Fin Nx → Fin Ny → ℚ

/-- A boolean mask on the grid (e.g. the design-region mask). -/
abbrev Mask (Nx Ny : ℕ) := Fin Nx → Fin Ny → Bool

/-- A batched field: a `torch` tensor of shape `(B, Nx, Ny)`. -/
abbrev BField (B Nx Ny : ℕ) := Fin B → Field Nx Ny

/-- Read a field at integer coordinates with zero padding outside the
grid, as `conv2d(..., padding=1)` does when it pads the input with one
ring of zeros. -/
def getPad {Nx Ny : ℕ} (u : Field Nx Ny) (i j : ℤ) : ℚ :=
  if h : 0 ≤ i ∧ i < (Nx : ℤ) ∧ 0 ≤ j ∧ j < (Ny : ℤ) then
    u ⟨i.toNat, by omega⟩ ⟨j.toNat, by omega⟩
  else 0

/-- 3×3 cross-correlation with zero padding:
`conv2d(u.unsqueeze(0).unsqueeze(0), k, padding=1)` for a single
`1×1×3×3` kernel `k`.  (`torch`'s `conv2d` is a cross-correlation,
`out[i,j] = Σ_{a,b} k[a,b] * pad(u)[i+a-1, j+b-1]`.) -/
def conv3 {Nx Ny : ℕ} (k : Fin 3 → Fin 3 → ℚ) (u : Field Nx Ny) : Field Nx Ny :=
  fun i j => ∑ a : Fin 3, ∑ b : Fin 3,
    k a b * getPad u (((i : ℕ) : ℤ) + (a : ℕ) - 1) (((j : ℕ) : ℤ) + (b : ℕ) - 1)

/-- Reading the padded field at an in-bounds coordinate is just reading
the field. -/
theorem getPad_inbounds {Nx Ny : ℕ} (u : Field Nx Ny) (i : Fin Nx) (j : Fin Ny) :
    getPad u ((i : ℕ) : ℤ) ((j : ℕ) : ℤ) = u i j := by
  have h : (0 : ℤ) ≤ ((i : ℕ) : ℤ) ∧ ((i : ℕ) : ℤ) < (Nx : ℤ) ∧
      (0 : ℤ) ≤ ((j : ℕ) : ℤ) ∧ ((j : ℕ) : ℤ) < (Ny : ℤ) := by
    refine ⟨Int.natCast_nonneg _, ?_, Int.natCast_nonneg _, ?_⟩ <;>
      exact_mod_cast Fin.is_lt _
  rw [getPad, dif_pos h]
  congr 1

/-- The padded read of the all-zero field is zero everywhere. -/
theorem getPad_zero {Nx Ny : ℕ} (i j : ℤ) :
    getPad (fun _ _ => (0 : ℚ) : Field Nx Ny) i j = 0 := by
  unfold getPad; split <;> rfl

/-- Python exceptions raised by the coordinate-setup helpers. -/
inductive PyError where
  | valueError (msg : String) : PyError
  | assertionError (msg : String) : PyError
  | indexError (msg : String) : PyError
deriving DecidableEq, Repr

/-- `setup_probe_coords(N_classes, px, py, pd, Nx, Ny, Npml)` from
`cell.py`.

* If both probe coordinate lists are given, check the lengths agree and
  pass them through.
* Else, if `py` is absent and the spacing `pd` is given, centre an
  evenly spaced vertical column of `N_classes` probes.  Python computes
  `y0 = int((Ny - span) / 2)`: float division followed by truncation
  toward zero, which on these (half-)integer values is exactly
  `Int.tdiv (Ny - span) 2`.
* Otherwise the code executes
  `raise ValueError("px = {}, py = {}, pd = {} is an invalid probe configuration".format(pd))`;
  the format string has three placeholders but receives a single
  argument, so Python raises `IndexError` while building the message
  and the `ValueError` is never constructed. -/
def setup_probe_coords (N_classes : ℕ) (px py : Option (List ℤ)) (pd : Option ℤ)
    (Nx Ny Npml : ℤ) : Except PyError (List ℤ × List ℤ) :=
  match py, px, pd with
  | some pys, some pxs, _ =>
    if pxs.length = pys.length then Except.ok (pxs, pys)
    else Except.error (PyError.assertionError "Length of px and py must match")
  | none, opx, some d =>
    let span : ℤ := ((N_classes : ℤ) - 1) * d
    let y0 : ℤ := Int.tdiv (Ny - span) 2
    if y0 > Npml then
      let ys : List ℤ := (List.range N_classes).map (fun i => y0 + (i : ℤ) * d)
      match opx with
      | some pxs =>
        if pxs.length = 1 then
          Except.ok ((List.range N_classes).map (fun _ => pxs.headI), ys)
        else
          Except.error (PyError.assertionError
            "If py is not specified then px must be of length 1")
      | none =>
        Except.ok ((List.range N_classes).map (fun _ => Nx - Npml - 20), ys)
    else Except.error (PyError.assertionError "Bottom element of array is inside the PML")
  | _, _, _ =>
    Except.error (PyError.indexError
      "Replacement index 1 out of range for positional args tuple")

/-- `setup_src_coords(src_x, src_y, Nx, Ny, Npml)` from `cell.py`. -/
def setup_src_coords (src_x src_y : Option ℤ) (Nx Ny Npml : ℤ) : ℤ × ℤ :=
  match src_x, src_y with
  | some sx, some sy => (sx, sy)
  | _, _ => (Npml + 20, Int.tdiv Ny 2)

/-- The 1D PML damping profile
`b_vals = pml_max * torch.linspace(0.0, 1.0, pml_N+1) ** pml_p`, whose
entry `k` (for `k ≤ pml_N`) is `pml_max * (k / pml_N) ^ pml_p`.  The
exponent (`4.0` in the code) is modelled as a natural number. -/
def b_vals (pml_N pml_p : ℕ) (pml_max : ℚ) (k : ℕ) : ℚ :=
  pml_max * ((k : ℚ) / (pml_N : ℚ)) ^ pml_p

/-- Slice assignment `u[lo : lo+len, :] = v` on a field: rows
`lo, ..., lo+len-1` are replaced by `v`, row `lo+k` receiving `vals k`
(the assigned block is constant along the second axis). -/
def assignRows {Nx Ny : ℕ} (lo len : ℕ) (vals : ℕ → ℚ) (u : Field Nx Ny) :
    Field Nx Ny :=
  fun i j => if lo ≤ (i : ℕ) ∧ (i : ℕ) < lo + len then vals ((i : ℕ) - lo) else u i j

/-- Slice assignment `u[:, lo : lo+len] = v` on a field, the column
analogue of `assignRows`. -/
def assignCols {Nx Ny : ℕ} (lo len : ℕ) (vals : ℕ → ℚ) (u : Field Nx Ny) :
    Field Nx Ny :=
  fun i j => if lo ≤ (j : ℕ) ∧ (j : ℕ) < lo + len then vals ((j : ℕ) - lo) else u i j

/-- `WaveCell.init_b(Nx, Ny, pml_N, pml_p, pml_max)` from `cell.py`:
build `b_x` by writing the flipped 1D profile into rows
`0 : pml_N+1` and the profile into rows `Nx-pml_N-1 : Nx` of a zero
field (the second write overwriting the first on any overlap), build
`b_y` the same way along columns, and return
`torch.sqrt(b_x**2 + b_y**2)`.  `sq` is the `torch.sqrt` primitive. -/
def init_b (sq : ℚ → ℚ) (Nx Ny pml_N pml_p : ℕ) (pml_max : ℚ) : Field Nx Ny :=
  let vals := b_vals pml_N pml_p pml_max
  let b_x : Field Nx Ny :=
    assignRows (Nx - pml_N - 1) (pml_N + 1) vals
      (assignRows 0 (pml_N + 1) (fun k => vals (pml_N - k)) (fun _ _ => 0))
  let b_y : Field Nx Ny :=
    assignCols (Ny - pml_N - 1) (pml_N + 1) vals
      (assignCols 0 (pml_N + 1) (fun k => vals (pml_N - k)) (fun _ _ => 0))
  fun i j => sq (b_x i j ^ 2 + b_y i j ^ 2)

/-- The state of a constructed `WaveCell` (module hyperparameters,
buffers and the trainable parameter `rho`).  The probe coordinate
lists `px`, `py` are kept as one list of pairs (the constructor
asserts they have equal length). -/
structure WaveCell (Nx Ny : ℕ) where
  dt : ℚ
  nl_uth : ℚ
  nl_b0 : ℚ
  eta : ℚ
  beta : ℚ
  c0 : ℚ
  c1 : ℚ
  src_x : Fin Nx
  src_y : Fin Ny
  probes : List (Fin Nx × Fin Ny)
  b_boundary : Field Nx Ny
  design_region : Mask Nx Ny
  rho : Field Nx Ny

/-- `self.use_nonlinearity = False if nl_b0 == 0 else True`. -/
def WaveCell.use_nonlinearity {Nx Ny : ℕ} (cell : WaveCell Nx Ny) : Bool :=
  if cell.nl_b0 = 0 then false else true

/-- `self.h = dt * 2.01 / 1.0`, the spatial step size. -/
def WaveCell.h {Nx Ny : ℕ} (cell : WaveCell Nx Ny) : ℚ :=
  cell.dt * (201 / 100)

/-- The Laplacian convolution kernel buffer
`self.laplacian = h**(-2) * [[0,1,0],[1,-4,1],[0,1,0]]`. -/
def WaveCell.laplacian {Nx Ny : ℕ} (cell : WaveCell Nx Ny) : Fin 3 → Fin 3 → ℚ :=
  fun a b => cell.h ^ (-2 : ℤ) *
    ![![(0 : ℚ), 1, 0], ![1, -4, 1], ![0, 1, 0]] a b

/-- The design region stored by `WaveCell.__init__`:
`design_region * (b_boundary == 0)` when a mask is supplied, and
`(b_boundary == 0)` otherwise. -/
def mkDesignRegion {Nx Ny : ℕ} (design : Option (Mask Nx Ny)) (b : Field Nx Ny) :
    Mask Nx Ny :=
  match design with
  | some m => fun i j => m i j && decide (b i j = 0)
  | none => fun i j => decide (b i j = 0)

/-- The masked write `rho[design_region == 0] = 0.0` of
`WaveCell.clip_to_design_region`. -/
def clip {Nx Ny : ℕ} (dr : Mask Nx Ny) (rho : Field Nx Ny) : Field Nx Ny :=
  fun i j => if dr i j then rho i j else 0

/-- `WaveCell.clip_to_design_region(self)`: zero the raw density
parameter outside the design region, in place. -/
def WaveCell.clip_to_design_region {Nx Ny : ℕ} (cell : WaveCell Nx Ny) :
    WaveCell Nx Ny :=
  { cell with rho := clip cell.design_region cell.rho }

/-- `WaveCell.__init__`: build the boundary damping buffer with
`init_b`, intersect the optional design mask with the zero-damping
region, store the initial raw density `rho0` (the random or constant
initialisation, passed in explicitly since `torch.rand` is not
modelled) and clip it to the design region.  `sq` is the `torch.sqrt`
primitive used by `init_b`. -/
def mkWaveCell (sq : ℚ → ℚ) {Nx Ny : ℕ} (dt : ℚ) (src_x : Fin Nx) (src_y : Fin Ny)
    (probes : List (Fin Nx × Fin Ny)) (nl_uth nl_b0 eta beta : ℚ)
    (pml_N pml_p : ℕ) (pml_max : ℚ) (c0 c1 : ℚ) (rho0 : Field Nx Ny)
    (design : Option (Mask Nx Ny)) : WaveCell Nx Ny :=
  let b := init_b sq Nx Ny pml_N pml_p pml_max
  let dr := mkDesignRegion design b
  { dt := dt, nl_uth := nl_uth, nl_b0 := nl_b0, eta := eta, beta := beta,
    c0 := c0, c1 := c1, src_x := src_x, src_y := src_y, probes := probes,
    b_boundary := b, design_region := dr, rho := clip dr rho0 }

/-- `sat_damp(u, uth, b0) = b0 / (1 + torch.abs(u/uth).pow(2))`. -/
def sat_damp (u uth b0 : ℚ) : ℚ :=
  b0 / (1 + |u / uth| ^ 2)

/-- The fixed 3×3 low-pass blur kernel
`[[0, 1/8, 0], [1/8, 1/2, 1/8], [0, 1/8, 0]]` used by `proj_rho` and
`init_rho_rand`. -/
def blurKernel : Fin 3 → Fin 3 → ℚ :=
  ![![(0 : ℚ), 1/8, 0], ![1/8, 1/2, 1/8], ![0, 1/8, 0]]

/-- `WaveCell.proj_rho(self)`: blur the raw density once with
`blurKernel` (zero-padded `conv2d`), then apply the smoothed threshold
`(tanh(beta*eta) + tanh(beta*(LPF_rho-eta))) / (tanh(beta*eta) + tanh(beta*(1-eta)))`
elementwise.  `th` is the `torch.tanh` primitive. -/
def WaveCell.proj_rho {Nx Ny : ℕ} (cell : WaveCell Nx Ny) (th : ℚ → ℚ) :
    Field Nx Ny :=
  let LPF_rho := conv3 blurKernel cell.rho
  fun i j =>
    (th (cell.beta * cell.eta) + th (cell.beta * (LPF_rho i j - cell.eta)))
      / (th (cell.beta * cell.eta) + th (cell.beta * (1 - cell.eta)))

/-- `WaveCell.step(self, x, y1, y2, rho)`: one explicit
finite-difference update of the batched wave state, followed by the
in-place source injection
`y[:, src_x, src_y] = y[:, src_x, src_y] + x.squeeze(1)`.
Returns `(y, y, y1)`: the output together with the advanced lag
states. -/
def WaveCell.step {Nx Ny B : ℕ} (cell : WaveCell Nx Ny) (rho : Field Nx Ny)
    (x : Fin B → ℚ) (y1 y2 : BField B Nx Ny) :
    BField B Nx Ny × BField B Nx Ny × BField B Nx Ny :=
  let dt := cell.dt
  let c : Field Nx Ny := fun i j => cell.c0 + (cell.c1 - cell.c0) * rho i j
  let b : BField B Nx Ny := fun k i j =>
    if cell.use_nonlinearity then
      cell.b_boundary i j + rho i j * sat_damp (y1 k i j) cell.nl_uth cell.nl_b0
    else
      cell.b_boundary i j
  let y : BField B Nx Ny := fun k i j =>
    (dt ^ (-2 : ℤ) + b k i j * (1/2) * dt ^ (-1 : ℤ))⁻¹ *
      (2 / dt ^ 2 * y1 k i j
        - (dt ^ (-2 : ℤ) - b k i j * (1/2) * dt ^ (-1 : ℤ)) * y2 k i j
        + c i j ^ 2 * conv3 cell.laplacian (y1 k) i j)
  let y_src : BField B Nx Ny := fun k i j =>
    if i = cell.src_x ∧ j = cell.src_y then y k i j + x k else y k i j
  (y_src, y_src, y1)

/-- The time loop of `WaveCell.forward`: fold `step` over the list of
per-timestep excitations, collecting each output field. -/
def WaveCell.stepAll {Nx Ny B : ℕ} (cell : WaveCell Nx Ny) (rho : Field Nx Ny) :
    List (Fin B → ℚ) → BField B Nx Ny → BField B Nx Ny → List (BField B Nx Ny)
  | [], _, _ => []
  | xi :: rest, y1, y2 =>
    let s := cell.step rho xi y1 y2
    s.1 :: cell.stepAll rho rest s.2.1 s.2.2

/-- `WaveCell.forward(self, x, probe_output=False)`: initialise both
lag states to zero, recompute the projected density once, unroll the
cell over the time axis and return the full field history.  `th` is
the `torch.tanh` primitive used by `proj_rho`. -/
def WaveCell.forward {Nx Ny B : ℕ} (cell : WaveCell Nx Ny) (th : ℚ → ℚ)
    (x : List (Fin B → ℚ)) : List (BField B Nx Ny) :=
  cell.stepAll (cell.proj_rho th) x (fun _ _ _ => 0) (fun _ _ _ => 0)

/-- IEEE float division, `Option`-valued: a zero denominator makes the
result a non-finite float (`0/0 = NaN`, `x/0 = ±Inf`), modelled by
`none`; otherwise the exact quotient. -/
def fdiv (a b : ℚ) : Option ℚ :=
  if b = 0 then none else some (a / b)

/-- `WaveCell.integrate_probe_points(px, py, y)`:
`I = torch.sum(torch.abs(y[:, :, px, py]).pow(2), dim=1)` sums the
squared field magnitude over time at each probe, then the row is
normalised by `I / torch.sum(I, dim=1, keepdim=True)` (IEEE division,
modelled by `fdiv`). -/
def integrate_probe_points {Nx Ny B : ℕ} (probes : List (Fin Nx × Fin Ny))
    (y : List (BField B Nx Ny)) : Fin B → List (Option ℚ) :=
  fun k =>
    let I : List ℚ := probes.map (fun p => (y.map (fun f => |f k p.1 p.2| ^ 2)).sum)
    I.map (fun e => fdiv e I.sum)

/-! ### Spec-side definitions

These follow the wording of the specification (and of the claims), to
be compared with the definitions translated from the source. -/

/-- The Laplacian as the spec words it: the 5-point stencil
`[[0,1,0],[1,-4,1],[0,1,0]] / h²` applied as a zero-padded 2D
convolution, i.e. the sum of the four edge neighbours minus four times
the centre, divided by `h²`. -/
def lap5 {Nx Ny : ℕ} (hs : ℚ) (u : Field Nx Ny) : Field Nx Ny :=
  fun i j =>
    (getPad u (((i : ℕ) : ℤ) - 1) ((j : ℕ) : ℤ)
      + getPad u (((i : ℕ) : ℤ) + 1) ((j : ℕ) : ℤ)
      + getPad u ((i : ℕ) : ℤ) (((j : ℕ) : ℤ) - 1)
      + getPad u ((i : ℕ) : ℤ) (((j : ℕ) : ℤ) + 1)
      - 4 * u i j) / hs ^ 2

/-- The step update as the spec words it:
`y_next = (1/dt² + b/(2dt))⁻¹ * [2/dt²*y_current - (1/dt² - b/(2dt))*y_previous + c²*Laplacian(y_current)]`
with `c = c0 + (c1-c0)*rho`, `b` the boundary damping plus the
saturable term when the nonlinearity is enabled, `h = dt*2.01`; then
the excitation is added at the source cell only, after the
finite-difference update, and the returned lag states are
`(y_next, y_current)`. -/
def specStep {Nx Ny B : ℕ} (cell : WaveCell Nx Ny) (rho : Field Nx Ny)
    (x : Fin B → ℚ) (y1 y2 : BField B Nx Ny) :
    BField B Nx Ny × BField B Nx Ny × BField B Nx Ny :=
  let dt := cell.dt
  let c : Field Nx Ny := fun i j => cell.c0 + (cell.c1 - cell.c0) * rho i j
  let b : BField B Nx Ny := fun k i j =>
    cell.b_boundary i j +
      (if cell.use_nonlinearity then
        rho i j * sat_damp (y1 k i j) cell.nl_uth cell.nl_b0
      else 0)
  let y_next : BField B Nx Ny := fun k i j =>
    (1 / dt ^ 2 + b k i j / (2 * dt))⁻¹ *
      (2 / dt ^ 2 * y1 k i j
        - (1 / dt ^ 2 - b k i j / (2 * dt)) * y2 k i j
        + c i j ^ 2 * lap5 (dt * (201 / 100)) (y1 k) i j)
  let out : BField B Nx Ny := fun k i j =>
    if i = cell.src_x ∧ j = cell.src_y then y_next k i j + x k else y_next k i j
  (out, out, y1)

/-- The `conv2d` of a field against the Laplacian kernel buffer agrees
with the spec's 5-point stencil Laplacian. -/
theorem conv3_laplacian {Nx Ny : ℕ} (cell : WaveCell Nx Ny) (u : Field Nx Ny)
    (i : Fin Nx) (j : Fin Ny) :
    conv3 cell.laplacian u i j = lap5 cell.h u i j := by
  have hc : getPad u ((i : ℕ) : ℤ) ((j : ℕ) : ℤ) = u i j := getPad_inbounds u i j
  have h21 : ∀ x : ℤ, x + 2 - 1 = x + 1 := fun x => by ring
  have h11 : ∀ x : ℤ, x + 1 - 1 = x := fun x => by ring
  simp only [conv3, WaveCell.laplacian, lap5, Fin.sum_univ_three]
  norm_num [Matrix.cons_val_zero, Matrix.cons_val_one, Matrix.head_cons,
    Matrix.cons_val_two, Matrix.tail_cons, h21, h11, hc, zpow_neg, zpow_ofNat,
    div_eq_mul_inv, inv_pow]
  ring

/-- C1: `WaveCell.step` returns
`y_next = (1/dt² + b/(2dt))⁻¹ * [2/dt²*y_current - (1/dt² - b/(2dt))*y_previous + c²*Laplacian(y_current)]`
with `c = c0 + (c1-c0)*rho` and the 5-point stencil Laplacian
(`[[0,1,0],[1,-4,1],[0,1,0]]/h²`, zero-padded, `h = dt*2.01`), then
adds the excitation at the source cell only, after the
finite-difference update, and the returned lag states are
`(y_next, y_current)`. -/
theorem step_matches_spec {Nx Ny B : ℕ} (cell : WaveCell Nx Ny) (rho : Field Nx Ny)
    (x : Fin B → ℚ) (y1 y2 : BField B Nx Ny) :
    cell.step rho x y1 y2 = specStep cell rho x y1 y2 := by
  simp only [WaveCell.step, specStep, Prod.mk.injEq]
  have hmain : ∀ (k : Fin B) (i : Fin Nx) (j : Fin Ny),
      (cell.dt ^ (-2 : ℤ) +
          (if cell.use_nonlinearity then
            cell.b_boundary i j + rho i j * sat_damp (y1 k i j) cell.nl_uth cell.nl_b0
          else cell.b_boundary i j) * (1/2) * cell.dt ^ (-1 : ℤ))⁻¹ *
        (2 / cell.dt ^ 2 * y1 k i j
          - (cell.dt ^ (-2 : ℤ) -
              (if cell.use_nonlinearity then
                cell.b_boundary i j + rho i j * sat_damp (y1 k i j) cell.nl_uth cell.nl_b0
              else cell.b_boundary i j) * (1/2) * cell.dt ^ (-1 : ℤ)) * y2 k i j
          + (cell.c0 + (cell.c1 - cell.c0) * rho i j) ^ 2
              * conv3 cell.laplacian (y1 k) i j) =
      (1 / cell.dt ^ 2 +
          (cell.b_boundary i j +
            (if cell.use_nonlinearity then
              rho i j * sat_damp (y1 k i j) cell.nl_uth cell.nl_b0
            else 0)) / (2 * cell.dt))⁻¹ *
        (2 / cell.dt ^ 2 * y1 k i j
          - (1 / cell.dt ^ 2 -
              (cell.b_boundary i j +
                (if cell.use_nonlinearity then
                  rho i j * sat_damp (y1 k i j) cell.nl_uth cell.nl_b0
                else 0)) / (2 * cell.dt)) * y2 k i j
          + (cell.c0 + (cell.c1 - cell.c0) * rho i j) ^ 2
              * lap5 (cell.dt * (201 / 100)) (y1 k) i j) := by
    intro k i j
    have hl : conv3 cell.laplacian (y1 k) i j = lap5 (cell.dt * (201 / 100)) (y1 k) i j :=
      conv3_laplacian cell (y1 k) i j
    have hb : (if cell.use_nonlinearity then
          cell.b_boundary i j + rho i j * sat_damp (y1 k i j) cell.nl_uth cell.nl_b0
        else cell.b_boundary i j) =
        cell.b_boundary i j +
          (if cell.use_nonlinearity then
            rho i j * sat_damp (y1 k i j) cell.nl_uth cell.nl_b0
          else 0) := by
      split <;> ring
    rw [hl, hb]
    simp only [zpow_neg, zpow_ofNat, zpow_one, div_eq_mul_inv, mul_inv]
    ring
  refine ⟨?_, ?_, trivial⟩ <;>
    (funext k i j; split <;> simp only [hmain])

/-- C2 (counterexample): with `Nx = Ny = 40`, `pml_depth = 10`,
2 probes via spacing 5 and no explicit coordinates,
`setup_probe_coords` returns y-coordinates `[17, 22]`
(`y0 = int((40-5)/2) = 17`), not `[18, 23]` as claimed. -/
theorem setup_probe_coords_claim_false :
    setup_probe_coords 2 none none (some 5) 40 40 10 =
      Except.ok ([10, 10], [17, 22]) ∧ ([17, 22] : List ℤ) ≠ [18, 23] :=
  ⟨rfl, by decide⟩

/-- C2 (amended): with `Nx = Ny = 40`, `pml_depth = 10`, 2 probes via
spacing 5 and no explicit coordinates, `setup_probe_coords` centres
the probe column and returns y-coordinates `[17, 22]`, neither of
which lies within indices `[0, 10)` or `[30, 40)`. -/
theorem setup_probe_coords_centered_example :
    setup_probe_coords 2 none none (some 5) 40 40 10 =
      Except.ok ([10, 10], [17, 22]) ∧
    ∀ y ∈ ([17, 22] : List ℤ), ¬ (0 ≤ y ∧ y < 10) ∧ ¬ (30 ≤ y ∧ y < 40) :=
  ⟨rfl, by decide⟩

/-- C3: for every `N_classes`, `px`, `Nx`, `Ny`, `Npml`, calling
`setup_probe_coords` with `py = None` and `pd = None` fails rather than
silently defaulting — but it fails with the `IndexError` raised while
formatting the `ValueError`'s message (three placeholders, one
argument), so the intended `ValueError` is never constructed. -/
theorem setup_probe_coords_missing_spacing (N_classes : ℕ) (px : Option (List ℤ))
    (Nx Ny Npml : ℤ) :
    setup_probe_coords N_classes px none none Nx Ny Npml =
      Except.error (PyError.indexError
        "Replacement index 1 out of range for positional args tuple") := by
  cases px <;> rfl

/-- One step on the all-zero state with zero excitation yields the
all-zero state again. -/
theorem step_zero {Nx Ny B : ℕ} (cell : WaveCell Nx Ny) (rho : Field Nx Ny) :
    cell.step rho (fun _ : Fin B => (0 : ℚ)) (fun _ _ _ => 0) (fun _ _ _ => 0) =
      (fun _ _ _ => 0, fun _ _ _ => 0, fun _ _ _ => 0) := by
  have hconv : ∀ (i : Fin Nx) (j : Fin Ny),
      conv3 cell.laplacian (fun _ _ => (0 : ℚ)) i j = 0 := by
    intro i j
    simp [conv3, getPad_zero]
  simp only [WaveCell.step, Prod.mk.injEq]
  refine ⟨?_, ?_, trivial⟩ <;> (funext k i j; split <;> simp [hconv])

/-- The time loop keeps the state at zero on an all-zero input
sequence of any length. -/
theorem stepAll_zero {Nx Ny B : ℕ} (cell : WaveCell Nx Ny) (rho : Field Nx Ny)
    (n : ℕ) :
    cell.stepAll rho (List.replicate n (fun _ : Fin B => (0 : ℚ)))
      (fun _ _ _ => 0) (fun _ _ _ => 0) =
      List.replicate n (fun _ _ _ => 0) := by
  induction n with
  | zero => rfl
  | succ n ih =>
    simp only [List.replicate_succ, WaveCell.stepAll, step_zero, ih]

/-- C9: for every cell configuration (any projected density) and every
batch size, `forward` on a 10-timestep all-zero input sequence
produces a full output field that is all zeros at every timestep. -/
theorem forward_zero_input {Nx Ny B : ℕ} (cell : WaveCell Nx Ny) (th : ℚ → ℚ) :
    cell.forward th (List.replicate 10 (fun _ : Fin B => (0 : ℚ))) =
      List.replicate 10 (fun _ _ _ => 0) :=
  stepAll_zero cell (cell.proj_rho th) 10

/-- C6: after `clip_to_design_region`, every cell of `rho` outside the
design region equals exactly 0, and every cell inside the design
region is unchanged. -/
theorem clip_to_design_region_spec {Nx Ny : ℕ} (cell : WaveCell Nx Ny)
    (i : Fin Nx) (j : Fin Ny) :
    (cell.design_region i j = false → cell.clip_to_design_region.rho i j = 0) ∧
    (cell.design_region i j = true →
      cell.clip_to_design_region.rho i j = cell.rho i j) := by
  unfold WaveCell.clip_to_design_region clip
  constructor <;> intro h <;> simp [h]

/-- A stand-in for the `torch.sqrt` primitive that has the order
properties the theorems assume of it (zero at zero, positive on
positives); used to instantiate theorems at concrete inputs. -/
def sqEx (q : ℚ) : ℚ := if q ≤ 0 then 0 else 1

/-- A small concrete cell (6×6 grid, PML depth 2) used to instantiate
theorems at concrete inputs. -/
def cellEx : WaveCell 6 6 :=
  mkWaveCell sqEx 1 2 3 [(1, 2)] 1 0 (1/2) 100 2 1 1 1 (9/10)
    (fun _ _ => 1/2) none

/-- Witness for C6 on the concrete cell: the corner `(0,0)` lies in
the PML (outside the design region) and is clipped to 0; the interior
point `(3,3)` is in the design region and keeps its value. -/
theorem clip_to_design_region_witness :
    cellEx.clip_to_design_region.rho ⟨0, by norm_num⟩ ⟨0, by norm_num⟩ = 0 ∧
      cellEx.clip_to_design_region.rho ⟨3, by norm_num⟩ ⟨3, by norm_num⟩ =
        cellEx.rho ⟨3, by norm_num⟩ ⟨3, by norm_num⟩ :=
  ⟨(clip_to_design_region_spec cellEx ⟨0, by norm_num⟩ ⟨0, by norm_num⟩).1
      (by norm_num [cellEx, mkWaveCell, mkDesignRegion, init_b, assignRows,
        assignCols, b_vals, sqEx]),
   (clip_to_design_region_spec cellEx ⟨3, by norm_num⟩ ⟨3, by norm_num⟩).2
      (by norm_num [cellEx, mkWaveCell, mkDesignRegion, init_b, assignRows,
        assignCols, b_vals, sqEx])⟩

/-- C5: the design region stored at construction is `M AND (b == 0)`
when a mask `M` is supplied and `b == 0` otherwise, so every trainable
cell is a cell of zero boundary damping. -/
theorem design_region_zero_damping {Nx Ny : ℕ} (sq : ℚ → ℚ) (dt : ℚ)
    (sx : Fin Nx) (sy : Fin Ny) (probes : List (Fin Nx × Fin Ny))
    (nl_uth nl_b0 eta beta : ℚ) (pml_N pml_p : ℕ) (pml_max : ℚ) (c0 c1 : ℚ)
    (rho0 : Field Nx Ny) (design : Option (Mask Nx Ny)) (cell : WaveCell Nx Ny)
    (hcell : cell = mkWaveCell sq dt sx sy probes nl_uth nl_b0 eta beta
      pml_N pml_p pml_max c0 c1 rho0 design) :
    (∀ m, design = some m →
      cell.design_region = fun i j => m i j && decide (cell.b_boundary i j = 0)) ∧
    (design = none →
      cell.design_region = fun i j => decide (cell.b_boundary i j = 0)) ∧
    (∀ i j, cell.design_region i j = true → cell.b_boundary i j = 0) := by
  subst hcell
  refine ⟨?_, ?_, ?_⟩
  · intro m hm; subst hm; rfl
  · intro hm; subst hm; rfl
  · intro i j h
    cases design with
    | none =>
      simpa [mkWaveCell, mkDesignRegion] using h
    | some m =>
      have h' := h
      simp only [mkWaveCell, mkDesignRegion, Bool.and_eq_true,
        decide_eq_true_eq] at h'
      exact h'.2

/-- Witness for C5 on the concrete cell: the interior point `(3,3)` is
in the design region, and the theorem yields that its boundary damping
is zero. -/
theorem design_region_zero_damping_witness :
    cellEx.b_boundary ⟨3, by norm_num⟩ ⟨3, by norm_num⟩ = 0 :=
  (design_region_zero_damping sqEx 1 2 3 [(1, 2)] 1 0 (1/2) 100 2 1 1 1 (9/10)
      (fun _ _ => 1/2) none cellEx rfl).2.2 ⟨3, by norm_num⟩ ⟨3, by norm_num⟩
    (by norm_num [cellEx, mkWaveCell, mkDesignRegion, init_b, assignRows,
      assignCols, b_vals, sqEx])

/-- The blur as the spec words it: weight `1/2` at the centre, `1/8`
at the four edge neighbours, `0` at the corners, with zero padding. -/
def blurSpec {Nx Ny : ℕ} (u : Field Nx Ny) : Field Nx Ny :=
  fun i j =>
    (1/2) * u i j +
      (1/8) * (getPad u (((i : ℕ) : ℤ) - 1) ((j : ℕ) : ℤ)
        + getPad u (((i : ℕ) : ℤ) + 1) ((j : ℕ) : ℤ)
        + getPad u ((i : ℕ) : ℤ) (((j : ℕ) : ℤ) - 1)
        + getPad u ((i : ℕ) : ℤ) (((j : ℕ) : ℤ) + 1))

/-- The smoothed threshold nonlinearity of the projection, applied
elementwise to the blurred field. -/
def smoothThresh (th : ℚ → ℚ) (eta beta v : ℚ) : ℚ :=
  (th (beta * eta) + th (beta * (v - eta))) / (th (beta * eta) + th (beta * (1 - eta)))

/-- The `conv2d` of a field against the blur kernel agrees with the
spec's blur formula. -/
theorem conv3_blur {Nx Ny : ℕ} (u : Field Nx Ny) (i : Fin Nx) (j : Fin Ny) :
    conv3 blurKernel u i j = blurSpec u i j := by
  have hc : getPad u ((i : ℕ) : ℤ) ((j : ℕ) : ℤ) = u i j := getPad_inbounds u i j
  have h21 : ∀ x : ℤ, x + 2 - 1 = x + 1 := fun x => by ring
  have h11 : ∀ x : ℤ, x + 1 - 1 = x := fun x => by ring
  simp only [conv3, blurKernel, blurSpec, Fin.sum_univ_three]
  norm_num [Matrix.cons_val_zero, Matrix.cons_val_one, Matrix.head_cons,
    Matrix.cons_val_two, Matrix.tail_cons, h21, h11, hc]
  ring

/-- C7: `proj_rho` applies the 3×3 blur kernel (weights `1/8` at the
four edge neighbours, `1/2` at the centre, `0` at the corners) exactly
once with zero padding, then applies elementwise the smoothed
threshold
`(tanh(beta*eta) + tanh(beta*(blurred-eta))) / (tanh(beta*eta) + tanh(beta*(1-eta)))`. -/
theorem proj_rho_matches_spec {Nx Ny : ℕ} (cell : WaveCell Nx Ny) (th : ℚ → ℚ) :
    cell.proj_rho th =
      fun i j => smoothThresh th cell.eta cell.beta (blurSpec cell.rho i j) := by
  funext i j
  simp only [WaveCell.proj_rho, smoothThresh, conv3_blur]

/-- A list of nonnegative rationals with a positive member has a
positive sum. -/
theorem sum_pos_of_mem {l : List ℚ} {a : ℚ} (h : a ∈ l) (ha : 0 < a)
    (hall : ∀ b ∈ l, 0 ≤ b) : 0 < l.sum := by
  induction l with
  | nil => cases h
  | cons x xs ih =>
    rw [List.sum_cons]
    rcases List.mem_cons.mp h with rfl | hmem
    · exact add_pos_of_pos_of_nonneg ha
        (List.sum_nonneg fun b hb => hall b (List.mem_cons_of_mem _ hb))
    · exact add_pos_of_nonneg_of_pos (hall x (List.mem_cons_self x xs))
        (ih hmem fun b hb => hall b (List.mem_cons_of_mem _ hb))

/-- Dividing every member of a list by a constant divides the sum. -/
theorem sum_map_div (l : List ℚ) (c : ℚ) :
    (l.map (fun a => a / c)).sum = l.sum / c := by
  induction l with
  | nil => simp
  | cons x xs ih => simp [ih, add_div]

/-- C8: if the field history is not identically zero at the probe
coordinates for a batch element, `integrate_probe_points` returns for
that element one finite score per probe, each nonnegative (the
time-sum of squared field magnitudes at that probe, normalised), and
the scores sum to exactly 1. -/
theorem integrate_probe_points_normalizes {Nx Ny B : ℕ}
    (probes : List (Fin Nx × Fin Ny)) (y : List (BField B Nx Ny)) (k : Fin B)
    (hne : ∃ f ∈ y, ∃ p ∈ probes, f k p.1 p.2 ≠ 0) :
    ∃ l : List ℚ, integrate_probe_points probes y k = l.map some ∧
      (∀ q ∈ l, 0 ≤ q) ∧ l.sum = 1 := by
  obtain ⟨f, hf, p, hp, hv⟩ := hne
  have hallnn : ∀ e ∈ probes.map (fun p => (y.map (fun g => |g k p.1 p.2| ^ 2)).sum),
      0 ≤ e := by
    intro e he
    obtain ⟨q, _, rfl⟩ := List.mem_map.mp he
    refine List.sum_nonneg fun a ha => ?_
    obtain ⟨g, _, rfl⟩ := List.mem_map.mp ha
    positivity
  have hpos : 0 < (y.map (fun g => |g k p.1 p.2| ^ 2)).sum := by
    refine sum_pos_of_mem (List.mem_map_of_mem _ hf) ?_ ?_
    · have : 0 < |f k p.1 p.2| := abs_pos.mpr hv
      positivity
    · intro a ha
      obtain ⟨g, _, rfl⟩ := List.mem_map.mp ha
      positivity
  have hS : 0 < (probes.map (fun p => (y.map (fun g => |g k p.1 p.2| ^ 2)).sum)).sum :=
    sum_pos_of_mem (List.mem_map_of_mem _ hp) hpos hallnn
  set I := probes.map (fun p => (y.map (fun g => |g k p.1 p.2| ^ 2)).sum) with hI
  refine ⟨I.map (fun e => e / I.sum), ?_, ?_, ?_⟩
  · have hfun : (fun e => fdiv e I.sum) = fun e => some (e / I.sum) := by
      funext e
      simp [fdiv, ne_of_gt hS]
    simp only [integrate_probe_points, ← hI, hfun, List.map_map]
    rfl
  · intro q hq
    obtain ⟨e, he, rfl⟩ := List.mem_map.mp hq
    exact div_nonneg (hallnn e he) hS.le
  · rw [sum_map_div]
    exact div_self (ne_of_gt hS)

/-- Witness for C8: a single probe at the single cell of a 1×1 grid
and a one-timestep history with field value 1 there. -/
theorem integrate_probe_points_normalizes_witness :
    ∃ l : List ℚ,
      integrate_probe_points (B := 1) ([(⟨0, by norm_num⟩, ⟨0, by norm_num⟩)] :
          List (Fin 1 × Fin 1)) [fun _ _ _ => 1] ⟨0, by norm_num⟩ = l.map some ∧
        (∀ q ∈ l, 0 ≤ q) ∧ l.sum = 1 :=
  integrate_probe_points_normalizes _ _ _
    ⟨fun _ _ _ => 1, List.mem_singleton.mpr rfl,
      (⟨0, by norm_num⟩, ⟨0, by norm_num⟩), List.mem_singleton.mpr rfl, one_ne_zero⟩

/-- C10: for a batch element whose field history is exactly zero at
every probe coordinate and every timestep, every per-probe energy is
exactly 0 and the row sum is 0, so the normalisation divides zero by
zero and every returned score is the non-finite float `NaN` (modelled
by `none`); no uniform fallback happens. -/
theorem integrate_probe_points_allzero_nan {Nx Ny B : ℕ}
    (probes : List (Fin Nx × Fin Ny)) (y : List (BField B Nx Ny)) (k : Fin B)
    (hz : ∀ f ∈ y, ∀ p ∈ probes, f k p.1 p.2 = 0) :
    (probes.map (fun p => (y.map (fun g => |g k p.1 p.2| ^ 2)).sum) =
      List.replicate probes.length 0) ∧
    integrate_probe_points probes y k = List.replicate probes.length none := by
  have hE : ∀ p ∈ probes, (y.map (fun g => |g k p.1 p.2| ^ 2)).sum = 0 := by
    intro p hp
    refine List.sum_eq_zero fun a ha => ?_
    obtain ⟨g, hg, rfl⟩ := List.mem_map.mp ha
    simp [hz g hg p hp]
  have hrep : probes.map (fun p => (y.map (fun g => |g k p.1 p.2| ^ 2)).sum) =
      List.replicate probes.length 0 := by
    refine List.eq_replicate_iff.mpr ⟨by simp, fun b hb => ?_⟩
    obtain ⟨p, hp, rfl⟩ := List.mem_map.mp hb
    exact hE p hp
  refine ⟨hrep, ?_⟩
  simp only [integrate_probe_points, hrep]
  simp [fdiv, List.sum_replicate, List.map_replicate]

/-- Witness for C10: a single probe on a 1×1 grid with a one-timestep
all-zero history; the single energy is 0 and the single score is the
non-finite `none`. -/
theorem integrate_probe_points_allzero_nan_witness :
    (([(⟨0, by norm_num⟩, ⟨0, by norm_num⟩)] : List (Fin 1 × Fin 1)).map
        (fun p => (([fun _ _ _ => 0] : List (BField 1 1 1)).map
          (fun g => |g ⟨0, by norm_num⟩ p.1 p.2| ^ 2)).sum) =
      List.replicate 1 0) ∧
    integrate_probe_points ([(⟨0, by norm_num⟩, ⟨0, by norm_num⟩)] :
        List (Fin 1 × Fin 1)) ([fun _ _ _ => 0] : List (BField 1 1 1))
      ⟨0, by norm_num⟩ = List.replicate 1 none :=
  integrate_probe_points_allzero_nan _ _ _ (fun f hf p _ => by
    rw [List.mem_singleton.mp hf])

/-- The 1D damping profile mirrored along both edges of an axis of
length `n`, as the spec words it: entry `t` reads the flipped profile
near the low edge, the profile near the high edge, and zero in
between. -/
def mirror1d (n pml_N : ℕ) (vals : ℕ → ℚ) (t : ℕ) : ℚ :=
  if t ≤ pml_N then vals (pml_N - t)
  else if n - pml_N - 1 ≤ t then vals (t - (n - pml_N - 1))
  else 0

/-- On a valid domain the two row slice-assignments of `init_b`
produce exactly the mirrored 1D profile. -/
theorem assignRows_mirror {Nx Ny : ℕ} (pml_N : ℕ) (vals : ℕ → ℚ)
    (hNx : 2 * pml_N + 2 ≤ Nx) (i : Fin Nx) (j : Fin Ny) :
    assignRows (Nx - pml_N - 1) (pml_N + 1) vals
      (assignRows 0 (pml_N + 1) (fun k => vals (pml_N - k)) (fun _ _ => 0)) i j =
      mirror1d Nx pml_N vals (i : ℕ) := by
  have hi := i.isLt
  unfold assignRows mirror1d
  split_ifs <;> first | rfl | (exfalso; omega)

/-- On a valid domain the two column slice-assignments of `init_b`
produce exactly the mirrored 1D profile. -/
theorem assignCols_mirror {Nx Ny : ℕ} (pml_N : ℕ) (vals : ℕ → ℚ)
    (hNy : 2 * pml_N + 2 ≤ Ny) (i : Fin Nx) (j : Fin Ny) :
    assignCols (Ny - pml_N - 1) (pml_N + 1) vals
      (assignCols 0 (pml_N + 1) (fun k => vals (pml_N - k)) (fun _ _ => 0)) i j =
      mirror1d Ny pml_N vals (j : ℕ) := by
  have hj := j.isLt
  unfold assignCols mirror1d
  split_ifs <;> first | rfl | (exfalso; omega)

/-- The mirrored profile vanishes strictly inside the domain (farther
than `pml_N` from both edges of the axis). -/
theorem mirror1d_eq_zero (n pml_N : ℕ) (vals : ℕ → ℚ) (t : ℕ)
    (h1 : pml_N < t) (h2 : t + pml_N + 2 ≤ n) :
    mirror1d n pml_N vals t = 0 := by
  unfold mirror1d
  rw [if_neg (by omega), if_neg (by omega)]

/-- The 1D profile is positive away from its zero entry. -/
theorem b_vals_pos (pml_N pml_p : ℕ) (pml_max : ℚ) (hmax : 0 < pml_max)
    (k : ℕ) (hk1 : 1 ≤ k) (hk2 : k ≤ pml_N) :
    0 < b_vals pml_N pml_p pml_max k := by
  unfold b_vals
  have hN : 0 < pml_N := lt_of_lt_of_le hk1 hk2
  have hq : (0 : ℚ) < (k : ℚ) / (pml_N : ℚ) :=
    div_pos (by exact_mod_cast hk1) (by exact_mod_cast hN)
  positivity

/-- The mirrored profile is positive strictly within `pml_N` of either
edge of the axis (at distance less than `pml_N` from the edge). -/
theorem mirror1d_pos (n pml_N pml_p : ℕ) (pml_max : ℚ) (hmax : 0 < pml_max)
    (t : ℕ) (hn : 2 * pml_N + 2 ≤ n) (ht : t < n)
    (h : t < pml_N ∨ n ≤ t + pml_N) :
    0 < mirror1d n pml_N (b_vals pml_N pml_p pml_max) t := by
  unfold mirror1d
  rcases h with h | h
  · rw [if_pos (by omega)]
    exact b_vals_pos pml_N pml_p pml_max hmax _ (by omega) (by omega)
  · rw [if_neg (by omega), if_pos (by omega)]
    exact b_vals_pos pml_N pml_p pml_max hmax _ (by omega) (by omega)

/-- C4: for every valid configuration, `init_b` equals
`sqrt(b_x² + b_y²)` of the mirrored 1D profile
`pml_max * linspace(0,1,pml_depth+1)^pml_power`, is exactly zero at
every cell farther than `pml_depth` from every edge, and is strictly
positive within the band except possibly at its inner edge index
(distance exactly `pml_depth`).  `sq` is the `torch.sqrt` primitive,
assumed zero at zero and positive on positives. -/
theorem init_b_spec (sq : ℚ → ℚ) (Nx Ny pml_N pml_p : ℕ) (pml_max : ℚ)
    (hsq0 : sq 0 = 0) (hsqpos : ∀ q : ℚ, 0 < q → 0 < sq q)
    (hmax : 0 < pml_max)
    (hNx : 2 * pml_N + 2 ≤ Nx) (hNy : 2 * pml_N + 2 ≤ Ny) :
    (∀ (i : Fin Nx) (j : Fin Ny),
      init_b sq Nx Ny pml_N pml_p pml_max i j =
        sq (mirror1d Nx pml_N (b_vals pml_N pml_p pml_max) (i : ℕ) ^ 2 +
            mirror1d Ny pml_N (b_vals pml_N pml_p pml_max) (j : ℕ) ^ 2)) ∧
    (∀ (i : Fin Nx) (j : Fin Ny),
      pml_N < (i : ℕ) → (i : ℕ) + pml_N + 2 ≤ Nx →
      pml_N < (j : ℕ) → (j : ℕ) + pml_N + 2 ≤ Ny →
      init_b sq Nx Ny pml_N pml_p pml_max i j = 0) ∧
    (∀ (i : Fin Nx) (j : Fin Ny),
      ((i : ℕ) < pml_N ∨ Nx ≤ (i : ℕ) + pml_N ∨
        (j : ℕ) < pml_N ∨ Ny ≤ (j : ℕ) + pml_N) →
      0 < init_b sq Nx Ny pml_N pml_p pml_max i j) := by
  have heq : ∀ (i : Fin Nx) (j : Fin Ny),
      init_b sq Nx Ny pml_N pml_p pml_max i j =
        sq (mirror1d Nx pml_N (b_vals pml_N pml_p pml_max) (i : ℕ) ^ 2 +
            mirror1d Ny pml_N (b_vals pml_N pml_p pml_max) (j : ℕ) ^ 2) := by
    intro i j
    unfold init_b
    rw [assignRows_mirror pml_N _ hNx, assignCols_mirror pml_N _ hNy]
  refine ⟨heq, ?_, ?_⟩
  · intro i j h1 h2 h3 h4
    rw [heq i j, mirror1d_eq_zero _ _ _ _ h1 h2, mirror1d_eq_zero _ _ _ _ h3 h4]
    simpa using hsq0
  · intro i j h
    rw [heq i j]
    apply hsqpos
    rcases h with h | h | h | h
    · exact add_pos_of_pos_of_nonneg
        (pow_pos (mirror1d_pos Nx pml_N pml_p pml_max hmax _ hNx i.isLt (Or.inl h)) 2)
        (sq_nonneg _)
    · exact add_pos_of_pos_of_nonneg
        (pow_pos (mirror1d_pos Nx pml_N pml_p pml_max hmax _ hNx i.isLt (Or.inr h)) 2)
        (sq_nonneg _)
    · exact add_pos_of_nonneg_of_pos (sq_nonneg _)
        (pow_pos (mirror1d_pos Ny pml_N pml_p pml_max hmax _ hNy j.isLt (Or.inl h)) 2)
    · exact add_pos_of_nonneg_of_pos (sq_nonneg _)
        (pow_pos (mirror1d_pos Ny pml_N pml_p pml_max hmax _ hNy j.isLt (Or.inr h)) 2)

/-- Witness for C4 on an 8×8 domain with PML depth 2: the interior
point `(3,3)` has zero damping and the strictly-in-band point `(1,3)`
has positive damping. -/
theorem init_b_spec_witness :
    init_b sqEx 8 8 2 1 1 ⟨3, by norm_num⟩ ⟨3, by norm_num⟩ = 0 ∧
      0 < init_b sqEx 8 8 2 1 1 ⟨1, by norm_num⟩ ⟨3, by norm_num⟩ := by
  have h := init_b_spec sqEx 8 8 2 1 1 (by norm_num [sqEx])
    (fun q hq => by simp only [sqEx, if_neg (not_le.mpr hq)]; norm_num)
    (by norm_num) (by norm_num) (by norm_num)
  exact ⟨h.2.1 ⟨3, by norm_num⟩ ⟨3, by norm_num⟩ (by norm_num) (by norm_num)
      (by norm_num) (by norm_num),
    h.2.2 ⟨1, by norm_num⟩ ⟨3, by norm_num⟩ (Or.inl (by norm_num))⟩

end Wavetorch
